import Mathlib

/-!
Verification of the archive prelude layer (common/archive/prelude.go):
the prelude read/write protocol (magic number, BSON header, metadata
records, terminator), the `AddMetadata` bookkeeping, the `PreludeExplorer`
virtual directory tree, and the metadata file accessors.

Go strings are byte sequences, modelled here as `List Nat`; Go's
`int32`/`int64` are modelled as `Int` with explicit two's-complement
reduction where the code serializes them.
-/

namespace Archive

/-- Go strings are byte sequences; we model them as lists of naturals. -/
abbrev ByteStr := List Nat

/-- Byte rendering of an ASCII Lean string literal, used to state concrete
names such as "db1" or "c1.bson" (for ASCII text, Go's bytes coincide with
the characters' code points). -/
def asciiStr (s : String) : ByteStr := s.data.map (fun c => c.toNat)

/-- Little-endian 4-byte encoding, as produced by the Go loop
`byte(uint32(v) >> uint(i*8))` for `i = 0..3`. -/
def encodeLE32 (n : Nat) : List Nat :=
  [n % 256, n / 256 % 256, n / 65536 % 256, n / 16777216 % 256]

/-- Little-endian interpretation of the first four bytes, as computed in
`Prelude.Read` by or-ing shifted bytes. -/
def decodeLE32 (b : List Nat) : Nat :=
  b.getD 0 0 + 256 * b.getD 1 0 + 65536 * b.getD 2 0 + 16777216 * b.getD 3 0

/-- Little-endian 8-byte encoding (BSON int64 payload). -/
def encodeLE64 (n : Nat) : List Nat :=
  [n % 256, n / 256 % 256, n / 65536 % 256, n / 16777216 % 256,
   n / 4294967296 % 256, n / 1099511627776 % 256,
   n / 281474976710656 % 256, n / 72057594037927936 % 256]

/-- Little-endian interpretation of the first eight bytes. -/
def decodeLE64 (b : List Nat) : Nat :=
  b.getD 0 0 + 256 * b.getD 1 0 + 65536 * b.getD 2 0 + 16777216 * b.getD 3 0 +
  4294967296 * b.getD 4 0 + 1099511627776 * b.getD 5 0 +
  281474976710656 * b.getD 6 0 + 72057594037927936 * b.getD 7 0

/-- Modelled from the spec: the fixed 4-byte archive magic number
("a 4-byte little-endian magic number identifying the stream as this
archive format"); the constant itself is declared in archive code outside
src/. The claims depend only on it being a fixed 32-bit value. -/
def MagicNumber : Nat := 0x8199e26d

/-- Modelled from the spec: the fixed terminator byte sequence marking the
end of the metadata section; declared in archive code outside src/. -/
def terminatorBytes : List Nat := [255, 255, 255, 255]

/-- Modelled from the spec: the archive Header,
`{ ArchiveFormatVersion, ConcurrentCollections: int32 }`; the struct is
declared in archive code outside src/. -/
structure Header where
  ArchiveFormatVersion : ByteStr
  ConcurrentCollections : Int
deriving DecidableEq

/-- Modelled from the spec: one namespace's metadata record,
`{ Database, Collection, Metadata: string, Size: int64 }`; the struct is
declared in archive code outside src/. -/
structure CollectionMetadata where
  Database : ByteStr
  Collection : ByteStr
  Metadata : ByteStr
  Size : Int
deriving DecidableEq

/-! ### BSON document model

Modelled from the spec: the header and each metadata record are emitted as
one self-delimited BSON document each (`bson.Marshal` of the mgo library,
external to this repository): a little-endian total-length prefix, the
elements, and a trailing zero byte.  String elements carry a type tag, a
zero-terminated field name, a length prefix and a zero-terminated payload;
int32/int64 elements carry the two's-complement little-endian value. -/

def bsonStringElem (name value : ByteStr) : List Nat :=
  2 :: (name ++ [0]) ++ encodeLE32 (value.length + 1) ++ value ++ [0]

def bsonInt32Elem (name : ByteStr) (v : Int) : List Nat :=
  16 :: (name ++ [0]) ++ encodeLE32 (v % 4294967296).toNat

def bsonInt64Elem (name : ByteStr) (v : Int) : List Nat :=
  18 :: (name ++ [0]) ++ encodeLE64 (v % 18446744073709551616).toNat

def bsonDoc (elems : List Nat) : List Nat :=
  encodeLE32 (elems.length + 5) ++ elems ++ [0]

def versionTag : ByteStr := asciiStr "archiveformatversion"
def concurrentTag : ByteStr := asciiStr "concurrentcollections"
def databaseTag : ByteStr := asciiStr "database"
def collectionTag : ByteStr := asciiStr "collection"
def metadataTag : ByteStr := asciiStr "metadata"
def sizeTag : ByteStr := asciiStr "size"

def marshalHeader (h : Header) : List Nat :=
  bsonDoc (bsonStringElem versionTag h.ArchiveFormatVersion ++
           bsonInt32Elem concurrentTag h.ConcurrentCollections)

/-- Modelled from the spec: `Prelude.Write` passes its (possibly nil)
header pointer to `bson.Marshal`; a nil header is rendered as the empty
document (writes are only performed on constructed preludes, whose header
is always set). -/
def marshalHeaderOpt : Option Header → List Nat
  | none => bsonDoc []
  | some h => marshalHeader h

def marshalCM (cm : CollectionMetadata) : List Nat :=
  bsonDoc (bsonStringElem databaseTag cm.Database ++
           bsonStringElem collectionTag cm.Collection ++
           bsonStringElem metadataTag cm.Metadata ++
           bsonInt64Elem sizeTag cm.Size)

/-- Strict parser for one BSON string element with the expected field name;
returns the payload and the remaining bytes. -/
def parseStringElem (tag : ByteStr) : List Nat → Option (ByteStr × List Nat)
  | t :: rest =>
    if t = 2 ∧ rest.take (tag.length + 1) = tag ++ [0] then
      let r := rest.drop (tag.length + 1)
      let len := decodeLE32 (r.take 4)
      let r2 := r.drop 4
      if 1 ≤ len ∧ len ≤ r2.length then
        match r2.drop (len - 1) with
        | 0 :: r3 => some (r2.take (len - 1), r3)
        | _ => none
      else none
    else none
  | [] => none

/-- Strict parser for one BSON int32 element with the expected field name. -/
def parseInt32Elem (tag : ByteStr) : List Nat → Option (Int × List Nat)
  | t :: rest =>
    if t = 16 ∧ rest.take (tag.length + 1) = tag ++ [0] then
      let r := rest.drop (tag.length + 1)
      if 4 ≤ r.length then
        let n := decodeLE32 (r.take 4)
        some (if n < 2147483648 then (n : Int) else (n : Int) - 4294967296, r.drop 4)
      else none
    else none
  | [] => none

/-- Strict parser for one BSON int64 element with the expected field name. -/
def parseInt64Elem (tag : ByteStr) : List Nat → Option (Int × List Nat)
  | t :: rest =>
    if t = 18 ∧ rest.take (tag.length + 1) = tag ++ [0] then
      let r := rest.drop (tag.length + 1)
      if 8 ≤ r.length then
        let n := decodeLE64 (r.take 8)
        some (if n < 9223372036854775808 then (n : Int)
              else (n : Int) - 18446744073709551616, r.drop 8)
      else none
    else none
  | [] => none

/-- Modelled from the spec: `bson.Unmarshal` of a header block
("deserialize the block's bytes into the Header structure"). -/
def unmarshalHeader (block : List Nat) : Option Header :=
  if decodeLE32 (block.take 4) = block.length then
    (parseStringElem versionTag (block.drop 4)).bind fun vr =>
    (parseInt32Elem concurrentTag vr.2).bind fun ccr =>
    if ccr.2 = [0] then some ⟨vr.1, ccr.1⟩ else none
  else none

/-- Modelled from the spec: `bson.Unmarshal` of a metadata-record block. -/
def unmarshalCM (block : List Nat) : Option CollectionMetadata :=
  if decodeLE32 (block.take 4) = block.length then
    (parseStringElem databaseTag (block.drop 4)).bind fun dbr =>
    (parseStringElem collectionTag dbr.2).bind fun cr =>
    (parseStringElem metadataTag cr.2).bind fun mdr =>
    (parseInt64Elem sizeTag mdr.2).bind fun szr =>
    if szr.2 = [0] then some ⟨dbr.1, cr.1, mdr.1, szr.1⟩ else none
  else none

/-- Well-formedness of one metadata record as a Go value: field strings of
serializable length and a `Size` within int64 range. -/
@[reducible] def cmWF (cm : CollectionMetadata) : Prop :=
  cm.Database.length < 1048576 ∧ cm.Collection.length < 1048576 ∧
  cm.Metadata.length < 1048576 ∧
  -9223372036854775808 ≤ cm.Size ∧ cm.Size < 9223372036854775808

/-- Well-formedness of a header as a Go value: version string of
serializable length and `ConcurrentCollections` within int32 range. -/
@[reducible] def headerWF (h : Header) : Prop :=
  h.ArchiveFormatVersion.length < 1048576 ∧
  -2147483648 ≤ h.ConcurrentCollections ∧ h.ConcurrentCollections < 2147483648

/-! ### The Prelude -/

/-- `Prelude` owns the parsed/assembled header and the ordered and
by-database-indexed namespace metadata.  The Go field
`NamespaceMetadatasByDB` is a possibly-nil map; we model it as an optional
association list (the code only ever looks keys up and appends to a key's
group, never iterates the map, so an association list is observationally
faithful). -/
structure Prelude where
  Header : Option Header
  DBS : List ByteStr
  NamespaceMetadatas : List CollectionMetadata
  NamespaceMetadatasByDB : Option (List (ByteStr × List CollectionMetadata))
deriving DecidableEq

/-- Map lookup on the association list modelling `NamespaceMetadatasByDB`. -/
def lookupDB : List (ByteStr × List CollectionMetadata) → ByteStr →
    Option (List CollectionMetadata)
  | [], _ => none
  | (k, v) :: rest, db => if k = db then some v else lookupDB rest db

/-- `m[db] = append(m[db], cm)` on the association list: append to the
existing group, or add a new singleton group. -/
def insertDB : List (ByteStr × List CollectionMetadata) → ByteStr →
    CollectionMetadata → List (ByteStr × List CollectionMetadata)
  | [], db, cm => [(db, [cm])]
  | (k, v) :: rest, db, cm =>
    if k = db then (k, v ++ [cm]) :: rest else (k, v) :: insertDB rest db cm

/-- A Prelude constructed with no fields set (nil header, nil slices, nil
map), as on the read path before parsing. -/
def emptyPrelude : Prelude := ⟨none, [], [], none⟩

/-- `AddMetadata` appends one record to the ordered sequence, appends the
database name to `DBS` when the (possibly nil, initialized on demand) map
has no entry for it yet, and appends the record to the database's group. -/
def Prelude.AddMetadata (p : Prelude) (cm : CollectionMetadata) : Prelude :=
  let m := p.NamespaceMetadatasByDB.getD []
  { Header := p.Header
    DBS := if (lookupDB m cm.Database).isSome then p.DBS else p.DBS ++ [cm.Database]
    NamespaceMetadatas := p.NamespaceMetadatas ++ [cm]
    NamespaceMetadatasByDB := some (insertDB m cm.Database cm) }

/-- The chunks `Prelude.Write` hands to the sink, in program order: the
magic number bytes, the marshalled header, each metadata record marshalled
individually, and the terminator. -/
def writeChunks (p : Prelude) : List (List Nat) :=
  encodeLE32 MagicNumber :: marshalHeaderOpt p.Header ::
    (p.NamespaceMetadatas.map marshalCM ++ [terminatorBytes])

/-- Sequential emission to a sink that may fail at any write call (the
sink is indexed by call number, modelling an `io.Writer` whose result
depends on how much has been written); the first failure aborts the
remaining writes and is returned. -/
def runWrites (sink : Nat → Option String) : Nat → List (List Nat) →
    Option String × List Nat
  | _, [] => (none, [])
  | i, c :: rest =>
    match sink i with
    | some e => (some e, [])
    | none =>
      let r := runWrites sink (i + 1) rest
      (r.1, c ++ r.2)

/-- `Prelude.Write`: emit magic number, header, each metadata record, then
the terminator; abort at the first failed write. -/
def Prelude.Write (p : Prelude) (sink : Nat → Option String) :
    Option String × List Nat :=
  runWrites sink 0 (writeChunks p)

/-- A sink that never fails. -/
def sinkOk : Nat → Option String := fun _ => none

/-- The default value `&Header{}` freshly allocated by the header callback
before unmarshalling. -/
def defaultHeader : Header := ⟨[], 0⟩

/-- Modelled from the spec: the BlockParser contract driven by
`Prelude.Read` ("read one block and dispatch to {header, body, end}
callback"), with the prelude consumer's callbacks (`HeaderBSON`,
`BodyBSON`, `End`) inlined.  Each block is a self-delimited document whose
4-byte little-endian length prefix is read first; the terminator sequence
in place of a length ends the loop.  The first block is the header, later
blocks are metadata records.  The parser implementation itself lives
outside src/.  The fuel argument is a modelling artifact making the loop
structurally recursive; each step consumes at least one byte, so
`input.length + 1` fuel always suffices. -/
def readBlocks : Nat → Bool → Prelude → List Nat →
    Option String × Prelude × List Nat
  | 0, _, p, input => (some "parser: out of fuel", p, input)
  | fuel + 1, first, p, input =>
    if input.take 4 = terminatorBytes then (none, p, input.drop 4)
    else if input.length < 4 then (some "unexpected EOF", p, input.drop 4)
    else
      let len := decodeLE32 (input.take 4)
      if len < 5 then (some "parser: invalid block size", p, input.drop 4)
      else if input.length < len then (some "unexpected EOF", p, [])
      else
        let block := input.take len
        let rest := input.drop len
        if first then
          match unmarshalHeader block with
          | some h => readBlocks fuel false { p with Header := some h } rest
          | none =>
            (some "parser: header unmarshal error",
             { p with Header := some defaultHeader }, rest)
        else
          match unmarshalCM block with
          | some cm => readBlocks fuel false (p.AddMetadata cm) rest
          | none => (some "parser: metadata unmarshal error", p, rest)

/-- `Prelude.Read`: consume and check the 4-byte little-endian magic
number; on mismatch fail without consuming further; on match, reset the
by-database index to a fresh empty map only when it is already non-nil,
then drive the block parser.  Returns the Go error, the prelude state
after the call, and the unconsumed remainder of the input. -/
def Prelude.Read (p : Prelude) (input : List Nat) :
    Option String × Prelude × List Nat :=
  if input.length < 4 then (some "unexpected EOF", p, input.drop 4)
  else if decodeLE32 (input.take 4) ≠ MagicNumber then
    (some "stream or file does not apear to be a mongodump archive", p,
     input.drop 4)
  else
    let p1 := if p.NamespaceMetadatasByDB.isSome then
      { p with NamespaceMetadatasByDB := some [] } else p
    readBlocks (input.length + 1) true p1 (input.drop 4)

/-! ### PreludeExplorer -/

/-- A virtual directory entry keyed into its owning prelude by
`(database, collection, isMetadata)`. -/
structure PreludeExplorer where
  prelude : Prelude
  database : ByteStr
  collection : ByteStr
  isMetadata : Bool
deriving DecidableEq

/-- The root explorer of a prelude. -/
def Prelude.NewPreludeExplorer (p : Prelude) : PreludeExplorer :=
  ⟨p, [], [], false⟩

/-- `Name`: database name when no collection is set, else
`<collection>.metadata.json` for the metadata entry or
`<collection>.bson` for the data entry. -/
def PreludeExplorer.Name (pe : PreludeExplorer) : ByteStr :=
  if pe.collection = [] then pe.database
  else if pe.isMetadata then pe.collection ++ asciiStr ".metadata.json"
  else pe.collection ++ asciiStr ".bson"

/-- `Path`: the database name at directory level, the bare name at top
level, otherwise `filepath.Join(database, name)` (modelled as
`database ++ "/" ++ name`; the join's path cleaning is the identity on the
slash-free component names synthesized here). -/
def PreludeExplorer.Path (pe : PreludeExplorer) : ByteStr :=
  if pe.collection = [] then pe.database
  else if pe.database = [] then pe.Name
  else pe.database ++ asciiStr "/" ++ pe.Name

/-- `IsDir`: every entry without a collection is a directory. -/
def PreludeExplorer.IsDir (pe : PreludeExplorer) : Bool :=
  pe.collection = []

/-- The linear scan of `PreludeExplorer.Size` over the ordered metadata
sequence: the `Size` field of the first record matching database and
collection, `0` when none matches. -/
def sizeLoop : List CollectionMetadata → ByteStr → ByteStr → Int
  | [], _, _ => 0
  | ns :: rest, db, c =>
    if ns.Database = db ∧ ns.Collection = c then ns.Size else sizeLoop rest db c

/-- `Size`: `0` for directories, else the first matching record's `Size`. -/
def PreludeExplorer.Size (pe : PreludeExplorer) : Int :=
  if pe.IsDir then 0
  else sizeLoop pe.prelude.NamespaceMetadatas pe.database pe.collection

/-- The children synthesized for one group of records: per record a data
entry, followed by a metadata entry when its metadata text is non-empty. -/
def groupEntries (p : Prelude) (db : ByteStr)
    (group : List CollectionMetadata) : List PreludeExplorer :=
  group.flatMap fun cm =>
    ⟨p, db, cm.Collection, false⟩ ::
      (if cm.Metadata ≠ [] then [⟨p, db, cm.Collection, true⟩] else [])

/-- `ReadDir`: fails on non-directories; at the root, lists the top-level
(empty-database) namespaces followed by one directory entry per database
in `DBS`; at a database, fails when the key is absent from the index, else
lists that database's entries. -/
def PreludeExplorer.ReadDir (pe : PreludeExplorer) :
    Except String (List PreludeExplorer) :=
  if ¬ pe.IsDir then .error "not a directory"
  else if pe.database = [] then
    let top :=
      match lookupDB (pe.prelude.NamespaceMetadatasByDB.getD []) [] with
      | none => []
      | some g => groupEntries pe.prelude [] g
    .ok (top ++ pe.prelude.DBS.map fun db => ⟨pe.prelude, db, [], false⟩)
  else
    match lookupDB (pe.prelude.NamespaceMetadatasByDB.getD []) pe.database with
    | none => .error "no such directory"
    | some g => .ok (groupEntries pe.prelude pe.database g)

/-! ### Metadata file accessors -/

/-- The namespace key of an intent (the external intent type's `DB` and
`C` fields, at its interface boundary). -/
structure Intent where
  DB : ByteStr
  C : ByteStr
deriving DecidableEq

/-- The read-side metadata accessor: an intent key, the owning prelude,
and the lazily materialized buffer (`nil` before `Open` and after
`Close`). -/
structure MetadataPreludeFile where
  Intent : Intent
  Prelude : Prelude
  Buffer : Option ByteStr
deriving DecidableEq

/-- The linear scan of `MetadataPreludeFile.Open` over a database's group:
the first record whose collection matches. -/
def findMeta : List CollectionMetadata → ByteStr → Option CollectionMetadata
  | [], _ => none
  | m :: rest, c => if m.Collection = c then some m else findMeta rest c

/-- `Open`: fails (with the code's literal "so such file" message) when the
intent has no collection, when the database is absent from the index, or
when no record in the group matches the collection; on a hit, fills the
buffer with the matching record's metadata text. -/
def MetadataPreludeFile.Open (mpf : MetadataPreludeFile) :
    Option String × MetadataPreludeFile :=
  if mpf.Intent.C = [] then (some "so such file", mpf)
  else
    match lookupDB (mpf.Prelude.NamespaceMetadatasByDB.getD []) mpf.Intent.DB with
    | none => (some "so such file", mpf)
    | some g =>
      match findMeta g mpf.Intent.C with
      | some m => (none, { mpf with Buffer := some m.Metadata })
      | none => (some "so such file", mpf)

/-- `Close`: release the buffer. -/
def MetadataPreludeFile.Close (mpf : MetadataPreludeFile) :
    MetadataPreludeFile :=
  { mpf with Buffer := none }

/-- One step of first-seen-order accumulation. -/
def dbsStep (acc : List ByteStr) (d : ByteStr) : List ByteStr :=
  if d ∈ acc then acc else acc ++ [d]

/-- First-seen-order deduplication, describing the distinct-database list. -/
def firstSeen (l : List ByteStr) : List ByteStr :=
  l.foldl dbsStep []

/-- The group of records reachable for one database through the
by-database index (empty when the key or the map is absent). -/
def groupOf (p : Prelude) (db : ByteStr) : List CollectionMetadata :=
  (lookupDB (p.NamespaceMetadatasByDB.getD []) db).getD []

/-! ### Little-endian round trips -/

theorem decodeLE32_encodeLE32 (n : Nat) :
    decodeLE32 (encodeLE32 n) = n % 4294967296 := by
  simp only [decodeLE32, encodeLE32, List.getD, List.get?_eq_getElem?]
  simp only [List.getElem?_cons_zero, List.getElem?_cons_succ,
    Option.getD_some]
  omega

theorem decodeLE64_encodeLE64 (n : Nat) :
    decodeLE64 (encodeLE64 n) = n % 18446744073709551616 := by
  simp only [decodeLE64, encodeLE64, List.getD, List.get?_eq_getElem?]
  simp only [List.getElem?_cons_zero, List.getElem?_cons_succ,
    Option.getD_some]
  omega

@[simp] theorem encodeLE32_length (n : Nat) : (encodeLE32 n).length = 4 := rfl

@[simp] theorem encodeLE64_length (n : Nat) : (encodeLE64 n).length = 8 := rfl

theorem encodeLE32_ne_terminator {n : Nat} (h : n < 4294967295) :
    encodeLE32 n ≠ terminatorBytes := by
  intro he
  have := congrArg decodeLE32 he
  rw [decodeLE32_encodeLE32] at this
  have ht : decodeLE32 terminatorBytes = 4294967295 := rfl
  omega

/-! ### Element round trips -/

theorem parseStringElem_marshal (tag v : ByteStr) (rest : List Nat)
    (h : v.length + 1 < 4294967296) :
    parseStringElem tag (bsonStringElem tag v ++ rest) = some (v, rest) := by
  have h1 : bsonStringElem tag v ++ rest =
      2 :: ((tag ++ [0]) ++ (encodeLE32 (v.length + 1) ++ (v ++ 0 :: rest))) := by
    simp [bsonStringElem]
  have htake : ((tag ++ [0]) ++
      (encodeLE32 (v.length + 1) ++ (v ++ 0 :: rest))).take (tag.length + 1) =
      tag ++ [0] := List.take_left' (by simp)
  have hdrop : ((tag ++ [0]) ++
      (encodeLE32 (v.length + 1) ++ (v ++ 0 :: rest))).drop (tag.length + 1) =
      encodeLE32 (v.length + 1) ++ (v ++ 0 :: rest) := List.drop_left' (by simp)
  have htake4 : (encodeLE32 (v.length + 1) ++ (v ++ 0 :: rest)).take 4 =
      encodeLE32 (v.length + 1) := List.take_left' rfl
  have hdrop4 : (encodeLE32 (v.length + 1) ++ (v ++ 0 :: rest)).drop 4 =
      v ++ 0 :: rest := List.drop_left' rfl
  have hdec : decodeLE32 (encodeLE32 (v.length + 1)) = v.length + 1 := by
    rw [decodeLE32_encodeLE32]; exact Nat.mod_eq_of_lt h
  have htakev : (v ++ 0 :: rest).take (v.length + 1 - 1) = v := by
    simp
  have hdropv : (v ++ 0 :: rest).drop (v.length + 1 - 1) = 0 :: rest := by
    simp
  rw [h1]
  simp only [parseStringElem]
  rw [htake, hdrop, htake4, hdrop4, hdec]
  rw [if_pos (by simp)]
  rw [if_pos ⟨by omega, by simp⟩]
  rw [htakev, hdropv]

theorem parseInt32Elem_marshal (tag : ByteStr) (v : Int) (rest : List Nat)
    (h1 : -2147483648 ≤ v) (h2 : v < 2147483648) :
    parseInt32Elem tag (bsonInt32Elem tag v ++ rest) = some (v, rest) := by
  have hn : (v % 4294967296).toNat < 4294967296 := by omega
  have hsh : bsonInt32Elem tag v ++ rest =
      16 :: ((tag ++ [0]) ++ (encodeLE32 (v % 4294967296).toNat ++ rest)) := by
    simp [bsonInt32Elem]
  have htake : ((tag ++ [0]) ++
      (encodeLE32 (v % 4294967296).toNat ++ rest)).take (tag.length + 1) =
      tag ++ [0] := List.take_left' (by simp)
  have hdrop : ((tag ++ [0]) ++
      (encodeLE32 (v % 4294967296).toNat ++ rest)).drop (tag.length + 1) =
      encodeLE32 (v % 4294967296).toNat ++ rest := List.drop_left' (by simp)
  have htake4 : (encodeLE32 (v % 4294967296).toNat ++ rest).take 4 =
      encodeLE32 (v % 4294967296).toNat := List.take_left' rfl
  have hdrop4 : (encodeLE32 (v % 4294967296).toNat ++ rest).drop 4 = rest :=
    List.drop_left' rfl
  have hdec : decodeLE32 (encodeLE32 (v % 4294967296).toNat) =
      (v % 4294967296).toNat := by
    rw [decodeLE32_encodeLE32]; exact Nat.mod_eq_of_lt hn
  rw [hsh]
  simp only [parseInt32Elem]
  rw [htake, hdrop, htake4, hdrop4, hdec]
  rw [if_pos (by simp)]
  rw [if_pos (by simp)]
  congr 2
  split <;> omega

theorem parseInt64Elem_marshal (tag : ByteStr) (v : Int) (rest : List Nat)
    (h1 : -9223372036854775808 ≤ v) (h2 : v < 9223372036854775808) :
    parseInt64Elem tag (bsonInt64Elem tag v ++ rest) = some (v, rest) := by
  have hn : (v % 18446744073709551616).toNat < 18446744073709551616 := by
    omega
  have hsh : bsonInt64Elem tag v ++ rest =
      18 :: ((tag ++ [0]) ++
        (encodeLE64 (v % 18446744073709551616).toNat ++ rest)) := by
    simp [bsonInt64Elem]
  have htake : ((tag ++ [0]) ++
      (encodeLE64 (v % 18446744073709551616).toNat ++ rest)).take
        (tag.length + 1) = tag ++ [0] := List.take_left' (by simp)
  have hdrop : ((tag ++ [0]) ++
      (encodeLE64 (v % 18446744073709551616).toNat ++ rest)).drop
        (tag.length + 1) =
      encodeLE64 (v % 18446744073709551616).toNat ++ rest :=
    List.drop_left' (by simp)
  have htake8 : (encodeLE64 (v % 18446744073709551616).toNat ++ rest).take 8 =
      encodeLE64 (v % 18446744073709551616).toNat := List.take_left' rfl
  have hdrop8 : (encodeLE64 (v % 18446744073709551616).toNat ++ rest).drop 8 =
      rest := List.drop_left' rfl
  have hdec : decodeLE64 (encodeLE64 (v % 18446744073709551616).toNat) =
      (v % 18446744073709551616).toNat := by
    rw [decodeLE64_encodeLE64]; exact Nat.mod_eq_of_lt hn
  rw [hsh]
  simp only [parseInt64Elem]
  rw [htake, hdrop, htake8, hdrop8, hdec]
  rw [if_pos (by simp)]
  rw [if_pos (by simp)]
  congr 2
  split <;> omega

/-! ### Document round trips -/

@[simp] theorem versionTag_length : versionTag.length = 20 := rfl
@[simp] theorem concurrentTag_length : concurrentTag.length = 21 := rfl
@[simp] theorem databaseTag_length : databaseTag.length = 8 := rfl
@[simp] theorem collectionTag_length : collectionTag.length = 10 := rfl
@[simp] theorem metadataTag_length : metadataTag.length = 8 := rfl
@[simp] theorem sizeTag_length : sizeTag.length = 4 := rfl

@[simp] theorem bsonStringElem_length (tag v : ByteStr) :
    (bsonStringElem tag v).length = tag.length + v.length + 7 := by
  simp [bsonStringElem]
  try omega

@[simp] theorem bsonInt32Elem_length (tag : ByteStr) (v : Int) :
    (bsonInt32Elem tag v).length = tag.length + 6 := by
  simp [bsonInt32Elem]
  try omega

@[simp] theorem bsonInt64Elem_length (tag : ByteStr) (v : Int) :
    (bsonInt64Elem tag v).length = tag.length + 10 := by
  simp [bsonInt64Elem]
  try omega

theorem bsonDoc_take4 (elems : List Nat) :
    (bsonDoc elems).take 4 = encodeLE32 (elems.length + 5) :=
  List.take_left' (encodeLE32_length _)

theorem bsonDoc_drop4 (elems : List Nat) :
    (bsonDoc elems).drop 4 = elems ++ [0] :=
  List.drop_left' (encodeLE32_length _)

@[simp] theorem bsonDoc_length (elems : List Nat) :
    (bsonDoc elems).length = elems.length + 5 := by
  simp [bsonDoc]
  try omega

theorem marshalCM_length (cm : CollectionMetadata) :
    (marshalCM cm).length =
      cm.Database.length + cm.Collection.length + cm.Metadata.length + 66 := by
  simp [marshalCM]
  try omega

theorem marshalHeader_length (h : Header) :
    (marshalHeader h).length = h.ArchiveFormatVersion.length + 59 := by
  simp [marshalHeader]
  try omega

theorem unmarshalCM_marshalCM (cm : CollectionMetadata) (h : cmWF cm) :
    unmarshalCM (marshalCM cm) = some cm := by
  obtain ⟨hb1, hb2, hb3, hb4, hb5⟩ := h
  have p1 : parseStringElem databaseTag
      (bsonStringElem databaseTag cm.Database ++
       (bsonStringElem collectionTag cm.Collection ++
        (bsonStringElem metadataTag cm.Metadata ++
         (bsonInt64Elem sizeTag cm.Size ++ [0])))) =
      some (cm.Database,
        bsonStringElem collectionTag cm.Collection ++
        (bsonStringElem metadataTag cm.Metadata ++
         (bsonInt64Elem sizeTag cm.Size ++ [0]))) :=
    parseStringElem_marshal _ _ _ (by omega)
  have p2 : parseStringElem collectionTag
      (bsonStringElem collectionTag cm.Collection ++
       (bsonStringElem metadataTag cm.Metadata ++
        (bsonInt64Elem sizeTag cm.Size ++ [0]))) =
      some (cm.Collection,
        bsonStringElem metadataTag cm.Metadata ++
        (bsonInt64Elem sizeTag cm.Size ++ [0])) :=
    parseStringElem_marshal _ _ _ (by omega)
  have p3 : parseStringElem metadataTag
      (bsonStringElem metadataTag cm.Metadata ++
       (bsonInt64Elem sizeTag cm.Size ++ [0])) =
      some (cm.Metadata, bsonInt64Elem sizeTag cm.Size ++ [0]) :=
    parseStringElem_marshal _ _ _ (by omega)
  have p4 : parseInt64Elem sizeTag (bsonInt64Elem sizeTag cm.Size ++ [0]) =
      some (cm.Size, [0]) := parseInt64Elem_marshal _ _ _ hb4 hb5
  have hcond : ((bsonStringElem databaseTag cm.Database ++
      bsonStringElem collectionTag cm.Collection ++
      bsonStringElem metadataTag cm.Metadata ++
      bsonInt64Elem sizeTag cm.Size).length + 5) % 4294967296 =
      (bsonStringElem databaseTag cm.Database ++
       bsonStringElem collectionTag cm.Collection ++
       bsonStringElem metadataTag cm.Metadata ++
       bsonInt64Elem sizeTag cm.Size).length + 5 := by
    simp
    omega
  rw [show marshalCM cm = bsonDoc (bsonStringElem databaseTag cm.Database ++
      bsonStringElem collectionTag cm.Collection ++
      bsonStringElem metadataTag cm.Metadata ++
      bsonInt64Elem sizeTag cm.Size) from rfl]
  rw [unmarshalCM, bsonDoc_take4, bsonDoc_drop4, bsonDoc_length,
    decodeLE32_encodeLE32]
  rw [if_pos hcond]
  simp only [List.append_assoc] at p1 ⊢
  rw [p1]
  simp only [Option.some_bind]
  rw [p2]
  simp only [Option.some_bind]
  rw [p3]
  simp only [Option.some_bind]
  rw [p4]
  simp only [Option.some_bind]
  simp

theorem unmarshalHeader_marshalHeader (h : Header) (hw : headerWF h) :
    unmarshalHeader (marshalHeader h) = some h := by
  obtain ⟨hw1, hw2, hw3⟩ := hw
  have p1 : parseStringElem versionTag
      (bsonStringElem versionTag h.ArchiveFormatVersion ++
       (bsonInt32Elem concurrentTag h.ConcurrentCollections ++ [0])) =
      some (h.ArchiveFormatVersion,
        bsonInt32Elem concurrentTag h.ConcurrentCollections ++ [0]) :=
    parseStringElem_marshal _ _ _ (by omega)
  have p2 : parseInt32Elem concurrentTag
      (bsonInt32Elem concurrentTag h.ConcurrentCollections ++ [0]) =
      some (h.ConcurrentCollections, [0]) :=
    parseInt32Elem_marshal _ _ _ hw2 hw3
  have hcond : ((bsonStringElem versionTag h.ArchiveFormatVersion ++
      bsonInt32Elem concurrentTag h.ConcurrentCollections).length + 5) %
        4294967296 =
      (bsonStringElem versionTag h.ArchiveFormatVersion ++
       bsonInt32Elem concurrentTag h.ConcurrentCollections).length + 5 := by
    simp
    omega
  rw [show marshalHeader h = bsonDoc (bsonStringElem versionTag
      h.ArchiveFormatVersion ++
      bsonInt32Elem concurrentTag h.ConcurrentCollections) from rfl]
  rw [unmarshalHeader, bsonDoc_take4, bsonDoc_drop4, bsonDoc_length,
    decodeLE32_encodeLE32]
  rw [if_pos hcond]
  simp only [List.append_assoc] at p1 ⊢
  rw [p1]
  simp only [Option.some_bind]
  rw [p2]
  simp only [Option.some_bind]
  simp

/-! ### Block parser lemmas -/

theorem readBlocks_terminator (fuel : Nat) (first : Bool) (p : Prelude)
    (rest : List Nat) :
    readBlocks (fuel + 1) first p (terminatorBytes ++ rest) = (none, p, rest) := by
  have hc : List.take 4 (terminatorBytes ++ rest) = terminatorBytes :=
    List.take_left' rfl
  have hd : List.drop 4 (terminatorBytes ++ rest) = rest := List.drop_left' rfl
  rw [readBlocks]
  rw [if_pos hc, hd]

theorem readBlocks_doc_step (fuel : Nat) (first : Bool) (p : Prelude)
    (elems rest : List Nat) (hb : elems.length + 5 < 4294967295) :
    readBlocks (fuel + 1) first p (bsonDoc elems ++ rest) =
      if first then
        match unmarshalHeader (bsonDoc elems) with
        | some hh => readBlocks fuel false { p with Header := some hh } rest
        | none => (some "parser: header unmarshal error",
            { p with Header := some defaultHeader }, rest)
      else
        match unmarshalCM (bsonDoc elems) with
        | some cm => readBlocks fuel false (p.AddMetadata cm) rest
        | none => (some "parser: metadata unmarshal error", p, rest) := by
  have hbl : (bsonDoc elems).length = elems.length + 5 := bsonDoc_length elems
  have ht4 : (bsonDoc elems ++ rest).take 4 = encodeLE32 (elems.length + 5) := by
    simp only [bsonDoc, List.append_assoc]
    exact List.take_left' (encodeLE32_length _)
  have hterm : encodeLE32 (elems.length + 5) ≠ terminatorBytes :=
    encodeLE32_ne_terminator (by omega)
  have hlen : (bsonDoc elems ++ rest).length = elems.length + 5 + rest.length := by
    simp
  have hdec : decodeLE32 (encodeLE32 (elems.length + 5)) = elems.length + 5 := by
    rw [decodeLE32_encodeLE32]; omega
  have htl : (bsonDoc elems ++ rest).take (elems.length + 5) = bsonDoc elems :=
    List.take_left' hbl
  have hdl : (bsonDoc elems ++ rest).drop (elems.length + 5) = rest :=
    List.drop_left' hbl
  rw [readBlocks]
  rw [ht4, hdec, hlen]
  simp only []
  rw [htl, hdl]
  rw [if_neg hterm]
  rw [if_neg (by omega : ¬ elems.length + 5 + rest.length < 4)]
  rw [if_neg (by omega : ¬ elems.length + 5 < 5)]
  rw [if_neg (by omega : ¬ elems.length + 5 + rest.length < elems.length + 5)]

theorem readBlocks_header_step (fuel : Nat) (p : Prelude) (h : Header)
    (rest : List Nat) (hw : headerWF h) :
    readBlocks (fuel + 1) true p (marshalHeader h ++ rest) =
      readBlocks fuel false { p with Header := some h } rest := by
  obtain ⟨hw1, hw2, hw3⟩ := hw
  rw [show marshalHeader h = bsonDoc (bsonStringElem versionTag
      h.ArchiveFormatVersion ++
      bsonInt32Elem concurrentTag h.ConcurrentCollections) from rfl]
  rw [readBlocks_doc_step _ _ _ _ _ (by simp; omega)]
  rw [if_pos rfl]
  rw [show bsonDoc (bsonStringElem versionTag h.ArchiveFormatVersion ++
      bsonInt32Elem concurrentTag h.ConcurrentCollections) =
      marshalHeader h from rfl]
  rw [unmarshalHeader_marshalHeader h ⟨hw1, hw2, hw3⟩]

theorem readBlocks_body_step (fuel : Nat) (p : Prelude)
    (cm : CollectionMetadata) (rest : List Nat) (hw : cmWF cm) :
    readBlocks (fuel + 1) false p (marshalCM cm ++ rest) =
      readBlocks fuel false (p.AddMetadata cm) rest := by
  obtain ⟨hb1, hb2, hb3, hb4, hb5⟩ := hw
  rw [show marshalCM cm = bsonDoc (bsonStringElem databaseTag cm.Database ++
      bsonStringElem collectionTag cm.Collection ++
      bsonStringElem metadataTag cm.Metadata ++
      bsonInt64Elem sizeTag cm.Size) from rfl]
  rw [readBlocks_doc_step _ _ _ _ _ (by simp; omega)]
  rw [if_neg (by simp)]
  rw [show bsonDoc (bsonStringElem databaseTag cm.Database ++
      bsonStringElem collectionTag cm.Collection ++
      bsonStringElem metadataTag cm.Metadata ++
      bsonInt64Elem sizeTag cm.Size) = marshalCM cm from rfl]
  rw [unmarshalCM_marshalCM cm ⟨hb1, hb2, hb3, hb4, hb5⟩]

theorem readBlocks_run (cms : List CollectionMetadata) (p : Prelude)
    (rest : List Nat) (fuel : Nat) (hwf : ∀ cm ∈ cms, cmWF cm)
    (hfuel : cms.length + 1 ≤ fuel) :
    readBlocks fuel false p
        ((cms.map marshalCM).flatten ++ (terminatorBytes ++ rest)) =
      (none, List.foldl Prelude.AddMetadata p cms, rest) := by
  induction cms generalizing p fuel with
  | nil =>
    obtain ⟨f, rfl⟩ : ∃ f, fuel = f + 1 := ⟨fuel - 1, by omega⟩
    simpa using readBlocks_terminator f false p rest
  | cons c cs ih =>
    obtain ⟨f, rfl⟩ : ∃ f, fuel = f + 1 := ⟨fuel - 1, by omega⟩
    have hsh : ((c :: cs).map marshalCM).flatten ++ (terminatorBytes ++ rest) =
        marshalCM c ++ ((cs.map marshalCM).flatten ++ (terminatorBytes ++ rest)) := by
      simp
    rw [hsh, readBlocks_body_step _ _ _ _ (hwf c (by simp))]
    rw [ih (p.AddMetadata c) f (fun cm hm => hwf cm (by simp [hm]))
      (by simp at hfuel ⊢; omega)]
    simp

/-- A successful parser run from a non-first state only ever transforms
the prelude through a sequence of `AddMetadata` calls. -/
theorem readBlocks_false_shape : ∀ (fuel : Nat) (p : Prelude)
    (input : List Nat) (p2 : Prelude) (rest : List Nat),
    readBlocks fuel false p input = (none, p2, rest) →
    ∃ cms, p2 = List.foldl Prelude.AddMetadata p cms := by
  intro fuel
  induction fuel with
  | zero =>
    intro p input p2 rest h
    simp only [readBlocks, Prod.mk.injEq] at h
    exact absurd h.1 (by simp)
  | succ f ih =>
    intro p input p2 rest h
    rw [readBlocks] at h
    split at h
    · simp only [Prod.mk.injEq] at h
      exact ⟨[], h.2.1.symm⟩
    · split at h
      · simp only [Prod.mk.injEq] at h
        exact absurd h.1 (by simp)
      · simp only [] at h
        split at h
        · simp only [Prod.mk.injEq] at h
          exact absurd h.1 (by simp)
        · split at h
          · simp only [Prod.mk.injEq] at h
            exact absurd h.1 (by simp)
          · rw [if_neg (by simp)] at h
            split at h
            · obtain ⟨cms, hc⟩ := ih _ _ _ _ h
              exact ⟨_ :: cms, by simpa using hc⟩
            · simp only [Prod.mk.injEq] at h
              exact absurd h.1 (by simp)

/-- A successful parser run from the first-block state transforms the
prelude by possibly installing a parsed header and then a sequence of
`AddMetadata` calls. -/
theorem readBlocks_true_shape (fuel : Nat) (p : Prelude) (input : List Nat)
    (p2 : Prelude) (rest : List Nat)
    (h : readBlocks fuel true p input = (none, p2, rest)) :
    (∃ cms, p2 = List.foldl Prelude.AddMetadata p cms) ∨
    (∃ hh cms, p2 =
      List.foldl Prelude.AddMetadata { p with Header := some hh } cms) := by
  match fuel with
  | 0 =>
    simp only [readBlocks, Prod.mk.injEq] at h
    exact absurd h.1 (by simp)
  | f + 1 =>
    rw [readBlocks] at h
    split at h
    · simp only [Prod.mk.injEq] at h
      exact .inl ⟨[], h.2.1.symm⟩
    · split at h
      · simp only [Prod.mk.injEq] at h
        exact absurd h.1 (by simp)
      · simp only [] at h
        split at h
        · simp only [Prod.mk.injEq] at h
          exact absurd h.1 (by simp)
        · split at h
          · simp only [Prod.mk.injEq] at h
            exact absurd h.1 (by simp)
          · rw [if_pos trivial] at h
            split at h
            · obtain ⟨cms, hc⟩ := readBlocks_false_shape _ _ _ _ _ h
              exact .inr ⟨_, cms, hc⟩
            · simp only [Prod.mk.injEq] at h
              exact absurd h.1 (by simp)

/-! ### AddMetadata bookkeeping lemmas -/

theorem lookupDB_insertDB_self (m : List (ByteStr × List CollectionMetadata))
    (db : ByteStr) (cm : CollectionMetadata) :
    lookupDB (insertDB m db cm) db = some ((lookupDB m db).getD [] ++ [cm]) := by
  induction m with
  | nil => simp [insertDB, lookupDB]
  | cons kv rest ih =>
    obtain ⟨k, v⟩ := kv
    by_cases hk : k = db
    · subst hk
      simp [insertDB, lookupDB]
    · simp [insertDB, lookupDB, hk, ih]

theorem lookupDB_insertDB_ne (m : List (ByteStr × List CollectionMetadata))
    (db db' : ByteStr) (cm : CollectionMetadata) (h : db' ≠ db) :
    lookupDB (insertDB m db cm) db' = lookupDB m db' := by
  induction m with
  | nil => simp [insertDB, lookupDB, Ne.symm h]
  | cons kv rest ih =>
    obtain ⟨k, v⟩ := kv
    by_cases hk : k = db
    · subst hk
      simp [insertDB, lookupDB, Ne.symm h]
    · by_cases hk' : k = db'
      · subst hk'
        simp [insertDB, lookupDB, hk]
      · simp [insertDB, lookupDB, hk, hk', ih]

theorem groupOf_AddMetadata (p : Prelude) (cm : CollectionMetadata)
    (db : ByteStr) :
    groupOf (p.AddMetadata cm) db =
      groupOf p db ++ (if cm.Database = db then [cm] else []) := by
  by_cases hdb : cm.Database = db
  · subst hdb
    simp [groupOf, Prelude.AddMetadata, lookupDB_insertDB_self]
  · simp [groupOf, Prelude.AddMetadata,
      lookupDB_insertDB_ne _ _ _ _ (fun hh => hdb hh.symm), hdb]

theorem groupOf_foldl (p : Prelude) (cms : List CollectionMetadata)
    (db : ByteStr) :
    groupOf (List.foldl Prelude.AddMetadata p cms) db =
      groupOf p db ++ cms.filter (fun c => c.Database == db) := by
  induction cms generalizing p with
  | nil => simp
  | cons c cs ih =>
    rw [List.foldl_cons, ih, groupOf_AddMetadata]
    by_cases h : c.Database = db <;> simp [h, List.filter_cons]

theorem foldl_AddMetadata_NamespaceMetadatas (p : Prelude)
    (cms : List CollectionMetadata) :
    (List.foldl Prelude.AddMetadata p cms).NamespaceMetadatas =
      p.NamespaceMetadatas ++ cms := by
  induction cms generalizing p with
  | nil => simp
  | cons c cs ih =>
    rw [List.foldl_cons, ih]
    simp [Prelude.AddMetadata]

theorem foldl_AddMetadata_Header (p : Prelude)
    (cms : List CollectionMetadata) :
    (List.foldl Prelude.AddMetadata p cms).Header = p.Header := by
  induction cms generalizing p with
  | nil => rfl
  | cons c cs ih =>
    rw [List.foldl_cons, ih]
    rfl

theorem foldl_AddMetadata_DBS_ext (p : Prelude)
    (cms : List CollectionMetadata) :
    ∃ ext, (List.foldl Prelude.AddMetadata p cms).DBS = p.DBS ++ ext := by
  induction cms generalizing p with
  | nil => exact ⟨[], by simp⟩
  | cons c cs ih =>
    obtain ⟨ext, he⟩ := ih (p.AddMetadata c)
    rw [List.foldl_cons, he]
    by_cases h : (lookupDB (p.NamespaceMetadatasByDB.getD []) c.Database).isSome
    · exact ⟨ext, by simp [Prelude.AddMetadata, h]⟩
    · exact ⟨c.Database :: ext, by simp [Prelude.AddMetadata, h]⟩

/-- The association-list keys of the by-database index are exactly the
members of `DBS`. -/
def keysInv (p : Prelude) : Prop :=
  ∀ db, (lookupDB (p.NamespaceMetadatasByDB.getD []) db).isSome ↔ db ∈ p.DBS

theorem keysInv_empty : keysInv emptyPrelude := by
  intro db
  simp [emptyPrelude, lookupDB]

theorem lookupDB_insertDB_isSome (m : List (ByteStr × List CollectionMetadata))
    (db db' : ByteStr) (cm : CollectionMetadata) :
    (lookupDB (insertDB m db cm) db').isSome ↔
      db' = db ∨ (lookupDB m db').isSome := by
  by_cases h : db' = db
  · subst h
    simp [lookupDB_insertDB_self]
  · simp [lookupDB_insertDB_ne _ _ _ _ h, h]

theorem keysInv_AddMetadata (p : Prelude) (cm : CollectionMetadata)
    (h : keysInv p) : keysInv (p.AddMetadata cm) := by
  intro db
  have hins := lookupDB_insertDB_isSome (p.NamespaceMetadatasByDB.getD [])
    cm.Database db cm
  by_cases hs : (lookupDB (p.NamespaceMetadatasByDB.getD []) cm.Database).isSome
  · simp only [Prelude.AddMetadata, if_pos hs, Option.getD_some]
    rw [hins, h db]
    constructor
    · rintro (rfl | hm)
      · exact (h _).1 hs
      · exact hm
    · exact fun hm => Or.inr hm
  · simp only [Prelude.AddMetadata, if_neg hs, Option.getD_some]
    rw [hins, h db]
    simp [or_comm]

theorem DBS_AddMetadata_dbsStep (p : Prelude) (cm : CollectionMetadata)
    (h : keysInv p) :
    (p.AddMetadata cm).DBS = dbsStep p.DBS cm.Database := by
  by_cases hs : (lookupDB (p.NamespaceMetadatasByDB.getD []) cm.Database).isSome
  · rw [show (p.AddMetadata cm).DBS = p.DBS from by
      simp [Prelude.AddMetadata, hs]]
    rw [dbsStep, if_pos ((h _).1 hs)]
  · rw [show (p.AddMetadata cm).DBS = p.DBS ++ [cm.Database] from by
      simp [Prelude.AddMetadata, hs]]
    rw [dbsStep, if_neg (fun hm => hs ((h _).2 hm))]

theorem DBS_foldl (p : Prelude) (cms : List CollectionMetadata)
    (h : keysInv p) :
    (List.foldl Prelude.AddMetadata p cms).DBS =
      List.foldl dbsStep p.DBS (cms.map (fun c => c.Database)) := by
  induction cms generalizing p with
  | nil => simp
  | cons c cs ih =>
    rw [List.foldl_cons, List.map_cons, List.foldl_cons,
      ih (p.AddMetadata c) (keysInv_AddMetadata p c h),
      DBS_AddMetadata_dbsStep p c h]

theorem foldl_dbsStep_nodup (l : List ByteStr) (acc : List ByteStr)
    (h : acc.Nodup) : (List.foldl dbsStep acc l).Nodup := by
  induction l generalizing acc with
  | nil => simpa using h
  | cons d rest ih =>
    rw [List.foldl_cons]
    apply ih
    by_cases hm : d ∈ acc
    · simpa [dbsStep, hm] using h
    · simp [dbsStep, hm, List.nodup_append, h]

/-! ### Write lemmas -/

theorem runWrites_ok (sink : Nat → Option String) (i : Nat)
    (chunks : List (List Nat)) (h : ∀ j, sink j = none) :
    runWrites sink i chunks = (none, chunks.flatten) := by
  induction chunks generalizing i with
  | nil => simp [runWrites]
  | cons c rest ih => simp [runWrites, h i, ih]

theorem runWrites_fail (sink : Nat → Option String) (e : String) :
    ∀ (chunks : List (List Nat)) (i j : Nat), sink (i + j) = some e →
    (∀ k, k < j → sink (i + k) = none) → j < chunks.length →
    runWrites sink i chunks = (some e, (chunks.take j).flatten) := by
  intro chunks
  induction chunks with
  | nil =>
    intro i j h1 h2 h3
    simp at h3
  | cons c rest ih =>
    intro i j h1 h2 h3
    cases j with
    | zero =>
      simp [runWrites, show sink i = some e from by simpa using h1]
    | succ j' =>
      have h0 : sink i = none := by simpa using h2 0 (by omega)
      have h1' : sink (i + 1 + j') = some e := by
        rw [show i + 1 + j' = i + (j' + 1) from by omega]
        exact h1
      have h2' : ∀ k, k < j' → sink (i + 1 + k) = none := fun k hk => by
        rw [show i + 1 + k = i + (k + 1) from by omega]
        exact h2 (k + 1) (by omega)
      have h3' : j' < rest.length := by simpa using h3
      simp [runWrites, h0, ih (i + 1) j' h1' h2' h3']

theorem write_sinkOk (p : Prelude) :
    p.Write sinkOk = (none, (writeChunks p).flatten) :=
  runWrites_ok sinkOk 0 (writeChunks p) (fun _ => rfl)

theorem writeChunks_flatten (p : Prelude) :
    (writeChunks p).flatten =
      encodeLE32 MagicNumber ++ (marshalHeaderOpt p.Header ++
        ((p.NamespaceMetadatas.map marshalCM).flatten ++ terminatorBytes)) := by
  simp [writeChunks]

theorem length_le_flatten_marshalCM (cms : List CollectionMetadata) :
    cms.length ≤ ((cms.map marshalCM).flatten).length := by
  induction cms with
  | nil => simp
  | cons c cs ih =>
    have hc : (marshalCM c).length =
        c.Database.length + c.Collection.length + c.Metadata.length + 66 :=
      marshalCM_length c
    simp only [List.map_cons, List.flatten_cons, List.length_append,
      List.length_cons]
    omega

theorem AddMetadata_byDB_none (p : Prelude) (cm : CollectionMetadata)
    (h : p.NamespaceMetadatasByDB = none) :
    p.AddMetadata cm =
      Prelude.AddMetadata { p with NamespaceMetadatasByDB := some [] } cm := by
  simp [Prelude.AddMetadata, h]

/-- The Prelude accumulated by a sequence of `AddMetadata` calls starting
from the empty Prelude. -/
def preludeOf (cms : List CollectionMetadata) : Prelude :=
  List.foldl Prelude.AddMetadata emptyPrelude cms

theorem groupOf_emptyPrelude (db : ByteStr) : groupOf emptyPrelude db = [] := by
  simp [groupOf, emptyPrelude, lookupDB]

theorem groupOf_preludeOf (cms : List CollectionMetadata) (db : ByteStr) :
    groupOf (preludeOf cms) db = cms.filter (fun c => c.Database == db) := by
  rw [preludeOf, groupOf_foldl, groupOf_emptyPrelude, List.nil_append]

theorem NamespaceMetadatas_preludeOf (cms : List CollectionMetadata) :
    (preludeOf cms).NamespaceMetadatas = cms := by
  simpa [preludeOf, emptyPrelude] using
    foldl_AddMetadata_NamespaceMetadatas emptyPrelude cms

theorem DBS_preludeOf (cms : List CollectionMetadata) :
    (preludeOf cms).DBS = firstSeen (cms.map (fun c => c.Database)) := by
  rw [preludeOf, DBS_foldl emptyPrelude cms keysInv_empty]
  rfl

/-- When the group reachable for a key is non-empty, the index lookup hits
and returns exactly that group. -/
theorem lookupDB_of_groupOf_ne (p : Prelude) (db : ByteStr)
    (h : groupOf p db ≠ []) :
    lookupDB (p.NamespaceMetadatasByDB.getD []) db = some (groupOf p db) := by
  cases hl : lookupDB (p.NamespaceMetadatasByDB.getD []) db with
  | none => exact absurd (by rw [groupOf, hl]; rfl) h
  | some g => rw [groupOf, hl]; rfl

/-! ### Concrete sample values used by witnesses -/

def db1 : ByteStr := asciiStr "db1"
def db2 : ByteStr := asciiStr "db2"
def c1name : ByteStr := asciiStr "c1"
def c2name : ByteStr := asciiStr "c2"
def c3name : ByteStr := asciiStr "c3"
def oplogName : ByteStr := asciiStr "oplog"
def mdSample : ByteStr := asciiStr "m"

/-! ### Claims -/

/-- C1: Round-trip law.  For every Prelude `P` built via `AddMetadata`
from an arbitrary non-empty ordered list of (database, collection,
metadata-text, size) records together with a header (the write-path
construction: header set, fresh non-nil index), `Write P` to an error-free
sink followed by `Read` on a fresh empty Prelude over the produced bytes
succeeds, consumes the whole stream, and reconstructs exactly `P`: the
ordered metadata sequence, the by-database grouping and the header fields
of the read-back Prelude all equal `P`'s. -/
theorem c1_round_trip (hdr : Header) (cms : List CollectionMetadata)
    (hne : cms ≠ []) (hwf : ∀ cm ∈ cms, cmWF cm) (hhw : headerWF hdr) :
    Prelude.Read emptyPrelude
        ((List.foldl Prelude.AddMetadata
          ⟨some hdr, [], [], some []⟩ cms).Write sinkOk).2 =
      (none, List.foldl Prelude.AddMetadata ⟨some hdr, [], [], some []⟩ cms,
        []) := by
  have hPH : (List.foldl Prelude.AddMetadata
      (⟨some hdr, [], [], some []⟩ : Prelude) cms).Header = some hdr :=
    foldl_AddMetadata_Header _ _
  have hPN : (List.foldl Prelude.AddMetadata
      (⟨some hdr, [], [], some []⟩ : Prelude) cms).NamespaceMetadatas = cms := by
    simpa using foldl_AddMetadata_NamespaceMetadatas _ cms
  have hbytes : ((List.foldl Prelude.AddMetadata
      (⟨some hdr, [], [], some []⟩ : Prelude) cms).Write sinkOk).2 =
      encodeLE32 MagicNumber ++ (marshalHeader hdr ++
        ((cms.map marshalCM).flatten ++ terminatorBytes)) := by
    rw [write_sinkOk, writeChunks_flatten, hPH, hPN]
    rfl
  rw [hbytes]
  simp only [Prelude.Read]
  set input := encodeLE32 MagicNumber ++ (marshalHeader hdr ++
    ((cms.map marshalCM).flatten ++ terminatorBytes)) with hin
  have hlen4 : ¬ input.length < 4 := by
    rw [hin]
    simp only [List.length_append, encodeLE32_length]
    omega
  have ht4 : input.take 4 = encodeLE32 MagicNumber := by
    rw [hin]
    exact List.take_left' rfl
  have hd4 : input.drop 4 = marshalHeader hdr ++
      ((cms.map marshalCM).flatten ++ terminatorBytes) := by
    rw [hin]
    exact List.drop_left' rfl
  have hmag : decodeLE32 (input.take 4) = MagicNumber := by
    rw [ht4, decodeLE32_encodeLE32]
    decide
  rw [if_neg hlen4]
  rw [if_neg (by rw [hmag]; simp)]
  rw [if_neg (by simp [emptyPrelude])]
  rw [hd4]
  rw [show marshalHeader hdr ++ ((cms.map marshalCM).flatten ++ terminatorBytes) =
      marshalHeader hdr ++ ((cms.map marshalCM).flatten ++
        (terminatorBytes ++ [])) from by simp]
  rw [readBlocks_header_step input.length emptyPrelude hdr _ hhw]
  have hfuel : cms.length + 1 ≤ input.length := by
    have h1 := length_le_flatten_marshalCM cms
    rw [hin]
    simp only [List.length_append, encodeLE32_length]
    omega
  rw [readBlocks_run cms _ [] input.length hwf hfuel]
  have hstart : ({ emptyPrelude with Header := some hdr } : Prelude) =
      ⟨some hdr, [], [], none⟩ := rfl
  rw [hstart]
  obtain ⟨c, cs, rfl⟩ : ∃ c cs, cms = c :: cs := by
    cases cms with
    | nil => exact absurd rfl hne
    | cons c cs => exact ⟨c, cs, rfl⟩
  rw [List.foldl_cons, List.foldl_cons,
    AddMetadata_byDB_none (⟨some hdr, [], [], none⟩ : Prelude) c rfl]

theorem c1_round_trip_witness :
    Prelude.Read emptyPrelude
        ((List.foldl Prelude.AddMetadata
          ⟨some ⟨asciiStr "0.1", 4⟩, [], [], some []⟩
          [⟨db1, c1name, mdSample, 7⟩]).Write sinkOk).2 =
      (none, List.foldl Prelude.AddMetadata
        ⟨some ⟨asciiStr "0.1", 4⟩, [], [], some []⟩
        [⟨db1, c1name, mdSample, 7⟩], []) :=
  c1_round_trip ⟨asciiStr "0.1", 4⟩ [⟨db1, c1name, mdSample, 7⟩]
    (by decide) (by decide) (by decide)

/-- C2: Magic rejection.  For every input stream of at least four bytes
whose first four bytes, interpreted little-endian, differ from the fixed
magic number, `Prelude.Read` fails with the code's "not this archive
format" error, consumes exactly those four bytes and nothing further, and
leaves the Prelude (header, ordered metadata sequence, by-database index
and database list) unchanged. -/
theorem c2_magic_rejection (p : Prelude) (input : List Nat)
    (h4 : 4 ≤ input.length)
    (hm : decodeLE32 (input.take 4) ≠ MagicNumber) :
    p.Read input =
      (some "stream or file does not apear to be a mongodump archive", p,
        input.drop 4) := by
  simp only [Prelude.Read]
  rw [if_neg (by omega), if_pos hm]

theorem c2_magic_rejection_witness :
    Prelude.Read (⟨some ⟨asciiStr "0.1", 4⟩, [db1], [⟨db1, c1name, [], 0⟩],
        some [(db1, [⟨db1, c1name, [], 0⟩])]⟩ : Prelude) [1, 2, 3, 4, 5] =
      (some "stream or file does not apear to be a mongodump archive",
        ⟨some ⟨asciiStr "0.1", 4⟩, [db1], [⟨db1, c1name, [], 0⟩],
          some [(db1, [⟨db1, c1name, [], 0⟩])]⟩, [5]) :=
  c2_magic_rejection _ [1, 2, 3, 4, 5] (by decide) (by decide)

/-- C3: Dual-view consistency.  Starting from an empty Prelude, after any
finite sequence of `AddMetadata` calls the group reachable for each
database through the by-database index is exactly the subsequence of the
flat ordered sequence with that database (so each reachable record occurs
in the flat sequence with the same multiplicity and relative order), every
record reachable through the grouping is in the flat sequence, and the
distinct-database list holds each database name exactly once, in
first-seen order. -/
theorem c3_dual_view (cms : List CollectionMetadata) :
    (∀ db, groupOf (preludeOf cms) db =
      (preludeOf cms).NamespaceMetadatas.filter (fun c => c.Database == db)) ∧
    (∀ db cm, cm ∈ groupOf (preludeOf cms) db →
      cm ∈ (preludeOf cms).NamespaceMetadatas) ∧
    (preludeOf cms).DBS =
      firstSeen ((preludeOf cms).NamespaceMetadatas.map (fun c => c.Database)) ∧
    (preludeOf cms).DBS.Nodup := by
  refine ⟨?_, ?_, ?_, ?_⟩
  · intro db
    rw [groupOf_preludeOf, NamespaceMetadatas_preludeOf]
  · intro db cm hm
    rw [groupOf_preludeOf] at hm
    rw [NamespaceMetadatas_preludeOf]
    exact (List.mem_filter.1 hm).1
  · rw [DBS_preludeOf, NamespaceMetadatas_preludeOf]
  · rw [DBS_preludeOf]
    exact foldl_dbsStep_nodup _ [] (by simp)

theorem c3_dual_view_witness :
    groupOf (preludeOf [⟨db1, c1name, mdSample, 7⟩, ⟨db2, c3name, [], 0⟩]) db1 =
      (preludeOf [⟨db1, c1name, mdSample, 7⟩,
        ⟨db2, c3name, [], 0⟩]).NamespaceMetadatas.filter
          (fun c => c.Database == db1) ∧
    (preludeOf [⟨db1, c1name, mdSample, 7⟩, ⟨db2, c3name, [], 0⟩]).DBS.Nodup :=
  ⟨(c3_dual_view [⟨db1, c1name, mdSample, 7⟩, ⟨db2, c3name, [], 0⟩]).1 db1,
   (c3_dual_view [⟨db1, c1name, mdSample, 7⟩, ⟨db2, c3name, [], 0⟩]).2.2.2⟩

/-! ### C4: Size -/

def p4sample : Prelude := preludeOf [⟨db1, c1name, mdSample, 7⟩]
def pe4meta : PreludeExplorer := ⟨p4sample, db1, c1name, true⟩

/-- C4 counterexample: the claim says a metadata-variant entry reports
size 0, but `Size` never consults the metadata flag: over a prelude whose
only record has `Size = 7`, the metadata-variant entry for that namespace
reports 7, not 0. -/
theorem c4_counterexample :
    pe4meta.isMetadata = true ∧ pe4meta.IsDir = false ∧
    pe4meta.Size = 7 ∧ ¬ pe4meta.Size = 0 := by
  refine ⟨rfl, by decide, by decide, by decide⟩

theorem sizeLoop_eq_find? (l : List CollectionMetadata) (db c : ByteStr) :
    sizeLoop l db c =
      ((l.find? (fun ns => ns.Database == db && ns.Collection == c)).map
        (fun ns => ns.Size)).getD 0 := by
  induction l with
  | nil => rfl
  | cons ns rest ih =>
    by_cases h1 : ns.Database = db
    · by_cases h2 : ns.Collection = c
      · simp [sizeLoop, List.find?_cons, h1, h2]
      · simp [sizeLoop, List.find?_cons, h1, h2, ih]
    · simp [sizeLoop, List.find?_cons, h1, ih]

/-- C4 (amended): `Size` returns 0 for every directory-like entry (empty
collection); every non-directory entry — data entry and metadata-variant
entry alike, since the lookup ignores the metadata flag — returns the
`Size` field of the first CollectionMetadata whose database and collection
match the entry's key, and 0 when none matches. -/
theorem c4_size (pe : PreludeExplorer) :
    (pe.collection = [] → pe.Size = 0) ∧
    (pe.collection ≠ [] → pe.Size =
      ((pe.prelude.NamespaceMetadatas.find? (fun ns =>
          ns.Database == pe.database && ns.Collection == pe.collection)).map
        (fun ns => ns.Size)).getD 0) ∧
    PreludeExplorer.Size ⟨pe.prelude, pe.database, pe.collection, true⟩ =
      PreludeExplorer.Size ⟨pe.prelude, pe.database, pe.collection, false⟩ := by
  refine ⟨?_, ?_, rfl⟩
  · intro h
    simp [PreludeExplorer.Size, PreludeExplorer.IsDir, h]
  · intro h
    rw [show pe.Size = sizeLoop pe.prelude.NamespaceMetadatas pe.database
        pe.collection from by simp [PreludeExplorer.Size, PreludeExplorer.IsDir, h]]
    exact sizeLoop_eq_find? _ _ _

/-! ### C5: top-level namespace exposure -/

theorem mem_groupEntries_database (p : Prelude) (db : ByteStr)
    (g : List CollectionMetadata) (e : PreludeExplorer)
    (h : e ∈ groupEntries p db g) : e.database = db := by
  obtain ⟨cm, hcm, hin⟩ := List.mem_flatMap.1 h
  rcases List.mem_cons.1 hin with h1 | h1
  · rw [h1]
  · split at h1
    · rw [List.mem_singleton.1 h1]
    · simp at h1

/-- C5: Top-level (no-database) namespace exposure.  For a Prelude built
via `AddMetadata` from records including one with empty database and
collection "oplog", `ReadDir` on the root explorer emits exactly the
expansion of the empty-database group (per record a data entry, plus a
metadata entry when its metadata text is non-empty) followed by one
directory entry per distinct database value in first-seen order; the oplog
appears among the root-level data entries, its metadata variant appears
when its text is non-empty, and it is not listed under any (non-empty)
database directory. -/
theorem c5_top_level (cms : List CollectionMetadata) (md : ByteStr) (sz : Int)
    (hmem : (⟨[], oplogName, md, sz⟩ : CollectionMetadata) ∈ cms) :
    (preludeOf cms).NewPreludeExplorer.ReadDir =
      .ok (groupEntries (preludeOf cms) []
            (cms.filter (fun c => c.Database == [])) ++
          (preludeOf cms).DBS.map
            (fun db => ⟨preludeOf cms, db, [], false⟩)) ∧
    (⟨preludeOf cms, [], oplogName, false⟩ : PreludeExplorer) ∈
      groupEntries (preludeOf cms) []
        (cms.filter (fun c => c.Database == [])) ∧
    (md ≠ [] → (⟨preludeOf cms, [], oplogName, true⟩ : PreludeExplorer) ∈
      groupEntries (preludeOf cms) []
        (cms.filter (fun c => c.Database == []))) ∧
    (preludeOf cms).DBS = firstSeen (cms.map (fun c => c.Database)) ∧
    (∀ db, db ∈ (preludeOf cms).DBS → db ≠ [] → ∀ l,
      PreludeExplorer.ReadDir ⟨preludeOf cms, db, [], false⟩ = .ok l →
      (⟨preludeOf cms, [], oplogName, false⟩ : PreludeExplorer) ∉ l) := by
  have hmemf : (⟨[], oplogName, md, sz⟩ : CollectionMetadata) ∈
      cms.filter (fun c => c.Database == []) :=
    List.mem_filter.2 ⟨hmem, by simp⟩
  have hgroup : groupOf (preludeOf cms) [] =
      cms.filter (fun c => c.Database == []) := groupOf_preludeOf cms []
  have hgne : groupOf (preludeOf cms) [] ≠ [] := by
    rw [hgroup]
    intro h0
    rw [h0] at hmemf
    simp at hmemf
  have hlook : lookupDB ((preludeOf cms).NamespaceMetadatasByDB.getD []) [] =
      some (cms.filter (fun c => c.Database == [])) := by
    rw [← hgroup]
    exact lookupDB_of_groupOf_ne _ _ hgne
  refine ⟨?_, ?_, ?_, DBS_preludeOf cms, ?_⟩
  · simp [PreludeExplorer.ReadDir, Prelude.NewPreludeExplorer,
      PreludeExplorer.IsDir, hlook]
  · rw [groupEntries]
    exact List.mem_flatMap.2 ⟨⟨[], oplogName, md, sz⟩, hmemf, by simp⟩
  · intro hmd
    rw [groupEntries]
    exact List.mem_flatMap.2 ⟨⟨[], oplogName, md, sz⟩, hmemf, by simp [hmd]⟩
  · intro db hdb hdbne l hrd hmem5
    simp only [PreludeExplorer.ReadDir, PreludeExplorer.IsDir, hdbne] at hrd
    rw [if_neg not_false] at hrd
    cases hlk : lookupDB ((preludeOf cms).NamespaceMetadatasByDB.getD []) db with
    | none =>
      rw [hlk] at hrd
      exact Except.noConfusion hrd
    | some g =>
      rw [hlk] at hrd
      injection hrd with hl
      rw [← hl] at hmem5
      exact hdbne ((mem_groupEntries_database _ _ _ _ hmem5).symm ▸ rfl)

theorem c5_top_level_witness :
    (preludeOf [⟨[], oplogName, mdSample, 5⟩,
      ⟨db1, c1name, [], 0⟩]).NewPreludeExplorer.ReadDir =
      .ok (groupEntries (preludeOf [⟨[], oplogName, mdSample, 5⟩,
            ⟨db1, c1name, [], 0⟩]) []
            ([⟨[], oplogName, mdSample, 5⟩,
              ⟨db1, c1name, [], 0⟩].filter (fun c => c.Database == [])) ++
          (preludeOf [⟨[], oplogName, mdSample, 5⟩,
            ⟨db1, c1name, [], 0⟩]).DBS.map
            (fun db => ⟨preludeOf [⟨[], oplogName, mdSample, 5⟩,
              ⟨db1, c1name, [], 0⟩], db, [], false⟩)) ∧
    (⟨preludeOf [⟨[], oplogName, mdSample, 5⟩, ⟨db1, c1name, [], 0⟩], [],
        oplogName, true⟩ : PreludeExplorer) ∈
      groupEntries (preludeOf [⟨[], oplogName, mdSample, 5⟩,
        ⟨db1, c1name, [], 0⟩]) []
        ([⟨[], oplogName, mdSample, 5⟩,
          ⟨db1, c1name, [], 0⟩].filter (fun c => c.Database == [])) :=
  ⟨(c5_top_level [⟨[], oplogName, mdSample, 5⟩, ⟨db1, c1name, [], 0⟩]
      mdSample 5 (by decide)).1,
   (c5_top_level [⟨[], oplogName, mdSample, 5⟩, ⟨db1, c1name, [], 0⟩]
      mdSample 5 (by decide)).2.2.1 (by decide)⟩

theorem c4_size_witness :
    PreludeExplorer.Size ⟨p4sample, db1, [], false⟩ = 0 ∧
    pe4meta.Size =
      ((p4sample.NamespaceMetadatas.find? (fun ns =>
          ns.Database == db1 && ns.Collection == c1name)).map
        (fun ns => ns.Size)).getD 0 :=
  ⟨(c4_size ⟨p4sample, db1, [], false⟩).1 rfl,
   (c4_size pe4meta).2.1 (by decide)⟩

/-! ### C6: tree synthesis -/

def cms6 : List CollectionMetadata :=
  [⟨db1, c1name, mdSample, 1⟩, ⟨db1, c2name, [], 2⟩, ⟨db2, c3name, [], 3⟩]

def p6 : Prelude := preludeOf cms6

/-- C6: Tree synthesis determinism.  For the Prelude with databases
`db1, db2` in first-seen order, `db1` holding `c1` (non-empty metadata)
and `c2` (empty metadata), `ReadDir` at the root yields exactly the two
directory entries `db1` then `db2`; `ReadDir` on the `db1` entry yields
exactly the entries named `c1.bson`, `c1.metadata.json`, `c2.bson` in that
order; `ReadDir` on any non-directory entry fails with "not a directory";
and `ReadDir` on a database entry whose key is absent from the by-database
index fails with "no such directory". -/
theorem c6_tree_synthesis :
    p6.NewPreludeExplorer.ReadDir =
      .ok [⟨p6, db1, [], false⟩, ⟨p6, db2, [], false⟩] ∧
    PreludeExplorer.ReadDir ⟨p6, db1, [], false⟩ =
      .ok [⟨p6, db1, c1name, false⟩, ⟨p6, db1, c1name, true⟩,
           ⟨p6, db1, c2name, false⟩] ∧
    [(⟨p6, db1, c1name, false⟩ : PreludeExplorer).Name,
     (⟨p6, db1, c1name, true⟩ : PreludeExplorer).Name,
     (⟨p6, db1, c2name, false⟩ : PreludeExplorer).Name] =
      [asciiStr "c1.bson", asciiStr "c1.metadata.json", asciiStr "c2.bson"] ∧
    (∀ pe : PreludeExplorer, pe.collection ≠ [] →
      pe.ReadDir = .error "not a directory") ∧
    (∀ pe : PreludeExplorer, pe.collection = [] → pe.database ≠ [] →
      lookupDB (pe.prelude.NamespaceMetadatasByDB.getD []) pe.database = none →
      pe.ReadDir = .error "no such directory") := by
  refine ⟨rfl, rfl, rfl, ?_, ?_⟩
  · intro pe h
    simp [PreludeExplorer.ReadDir, PreludeExplorer.IsDir, h]
  · intro pe h1 h2 h3
    simp [PreludeExplorer.ReadDir, PreludeExplorer.IsDir, h1, h2, h3]

theorem c6_tree_synthesis_witness :
    PreludeExplorer.ReadDir ⟨p6, db1, c1name, false⟩ =
      .error "not a directory" ∧
    PreludeExplorer.ReadDir ⟨emptyPrelude, db1, [], false⟩ =
      .error "no such directory" :=
  ⟨c6_tree_synthesis.2.2.2.1 ⟨p6, db1, c1name, false⟩ (by decide),
   c6_tree_synthesis.2.2.2.2 ⟨emptyPrelude, db1, [], false⟩ rfl (by decide) rfl⟩

/-! ### C7: write emission order -/

/-- A sink failing exactly at the second write call. -/
def sinkFail1 : Nat → Option String := fun i => if i = 1 then some "boom" else none

/-- C7: Write emission order.  For every Prelude, `Write` hands the sink,
in order: the 4-byte little-endian magic number, the BSON-serialized
header, each CollectionMetadata of the flat ordered sequence serialized
individually as one self-delimited document (its length prefix equals its
byte length) in primary sequence order with no extra framing, and the
fixed terminator; with an error-free sink the emitted stream is exactly
that concatenation, and a sink failure at any write call aborts
immediately — only the chunks before it are emitted — and the failure is
returned to the caller. -/
theorem c7_write_emission (p : Prelude) (sink : Nat → Option String) :
    ((∀ j, sink j = none) → p.Write sink =
      (none, encodeLE32 MagicNumber ++ (marshalHeaderOpt p.Header ++
        ((p.NamespaceMetadatas.map marshalCM).flatten ++ terminatorBytes)))) ∧
    (∀ j e, sink j = some e → (∀ k, k < j → sink k = none) →
      j < (writeChunks p).length →
      p.Write sink = (some e, ((writeChunks p).take j).flatten)) ∧
    (∀ cm ∈ p.NamespaceMetadatas, cmWF cm →
      decodeLE32 ((marshalCM cm).take 4) = (marshalCM cm).length) := by
  refine ⟨?_, ?_, ?_⟩
  · intro hs
    rw [show p.Write sink = runWrites sink 0 (writeChunks p) from rfl,
      runWrites_ok sink 0 _ hs, writeChunks_flatten]
  · intro j e h1 h2 h3
    rw [show p.Write sink = runWrites sink 0 (writeChunks p) from rfl]
    exact runWrites_fail sink e (writeChunks p) 0 j (by simpa using h1)
      (fun k hk => by simpa using h2 k hk) h3
  · intro cm hm hw
    obtain ⟨w1, w2, w3, w4, w5⟩ := hw
    rw [show marshalCM cm = bsonDoc (bsonStringElem databaseTag cm.Database ++
        bsonStringElem collectionTag cm.Collection ++
        bsonStringElem metadataTag cm.Metadata ++
        bsonInt64Elem sizeTag cm.Size) from rfl,
      bsonDoc_take4, bsonDoc_length, decodeLE32_encodeLE32]
    simp only [List.length_append, bsonStringElem_length, bsonInt64Elem_length,
      databaseTag_length, collectionTag_length, metadataTag_length,
      sizeTag_length]
    omega

theorem c7_write_emission_witness :
    p4sample.Write sinkOk =
      (none, encodeLE32 MagicNumber ++ (marshalHeaderOpt p4sample.Header ++
        ((p4sample.NamespaceMetadatas.map marshalCM).flatten ++
          terminatorBytes))) ∧
    p4sample.Write sinkFail1 =
      (some "boom", ((writeChunks p4sample).take 1).flatten) :=
  ⟨(c7_write_emission p4sample sinkOk).1 (fun j => rfl),
   (c7_write_emission p4sample sinkFail1).2.1 1 "boom" rfl
     (fun k hk => by
       have hk1 : k ≠ 1 := by omega
       simp [sinkFail1, hk1])
     (by decide)⟩

/-! ### C8: path and name synthesis -/

/-- C8: Path and name synthesis.  The data entry for database `db1`,
collection `c1` reports `Name = "c1.bson"` and `Path = "db1/c1.bson"`, and
its metadata variant reports `Name = "c1.metadata.json"`; in general an
entry with empty collection reports its database name as both `Name` and
`Path`, and an entry with empty database and non-empty collection reports
its `Name` alone as its `Path`. -/
theorem c8_path_name (pe : PreludeExplorer) :
    (pe.collection = [] → pe.Name = pe.database ∧ pe.Path = pe.database) ∧
    (pe.database = [] → pe.collection ≠ [] → pe.Path = pe.Name) ∧
    PreludeExplorer.Name ⟨pe.prelude, db1, c1name, false⟩ =
      asciiStr "c1.bson" ∧
    PreludeExplorer.Path ⟨pe.prelude, db1, c1name, false⟩ =
      asciiStr "db1/c1.bson" ∧
    PreludeExplorer.Name ⟨pe.prelude, db1, c1name, true⟩ =
      asciiStr "c1.metadata.json" := by
  refine ⟨?_, ?_, rfl, rfl, rfl⟩
  · intro h
    exact ⟨by simp [PreludeExplorer.Name, h], by simp [PreludeExplorer.Path, h]⟩
  · intro h1 h2
    simp [PreludeExplorer.Path, h1, h2]

theorem c8_path_name_witness :
    (PreludeExplorer.Name ⟨emptyPrelude, db1, [], false⟩ = db1 ∧
     PreludeExplorer.Path ⟨emptyPrelude, db1, [], false⟩ = db1) ∧
    PreludeExplorer.Path ⟨emptyPrelude, [], oplogName, false⟩ =
      PreludeExplorer.Name ⟨emptyPrelude, [], oplogName, false⟩ :=
  ⟨(c8_path_name ⟨emptyPrelude, db1, [], false⟩).1 rfl,
   (c8_path_name ⟨emptyPrelude, [], oplogName, false⟩).2.1 rfl (by decide)⟩

/-! ### C9: read-side metadata accessor -/

theorem findMeta_eq_find? (l : List CollectionMetadata) (c : ByteStr) :
    findMeta l c = l.find? (fun m => m.Collection == c) := by
  induction l with
  | nil => rfl
  | cons m rest ih =>
    by_cases h : m.Collection = c <;> simp [findMeta, List.find?_cons, h, ih]

theorem findMeta_none_iff (l : List CollectionMetadata) (c : ByteStr) :
    findMeta l c = none ↔ ∀ m ∈ l, m.Collection ≠ c := by
  induction l with
  | nil => simp [findMeta]
  | cons m rest ih =>
    by_cases h : m.Collection = c <;> simp [findMeta, h, ih]

theorem findMeta_some_spec (l : List CollectionMetadata) (c : ByteStr)
    (m : CollectionMetadata) (h : findMeta l c = some m) :
    m ∈ l ∧ m.Collection = c := by
  induction l with
  | nil => exact Option.noConfusion h
  | cons m0 rest ih =>
    by_cases h0 : m0.Collection = c
    · rw [findMeta, if_pos h0] at h
      injection h with h
      subst h
      exact ⟨by simp, h0⟩
    · rw [findMeta, if_neg h0] at h
      obtain ⟨h1, h2⟩ := ih h
      exact ⟨by simp [h1], h2⟩

/-- C9: Read-side metadata accessor.  `Open` fails (with the code's
literal "so such file" message) exactly when the intent's collection is
empty, or its database is absent from the by-database index, or no record
in that database's group matches the collection; on a hit it returns
success with the buffer filled with the first matching record's metadata
text; `Close` sets the buffer absent, so a successful `Open` followed by
`Close` leaves the buffer absent. -/
theorem c9_metadata_accessor (mpf : MetadataPreludeFile) :
    ((mpf.Open).1 = some "so such file" ↔
      (mpf.Intent.C = [] ∨
       lookupDB (mpf.Prelude.NamespaceMetadatasByDB.getD [])
         mpf.Intent.DB = none ∨
       ∀ cm ∈ (lookupDB (mpf.Prelude.NamespaceMetadatasByDB.getD [])
         mpf.Intent.DB).getD [], cm.Collection ≠ mpf.Intent.C)) ∧
    (∀ g cm, lookupDB (mpf.Prelude.NamespaceMetadatasByDB.getD [])
        mpf.Intent.DB = some g →
      g.find? (fun m => m.Collection == mpf.Intent.C) = some cm →
      mpf.Intent.C ≠ [] →
      mpf.Open = (none, { mpf with Buffer := some cm.Metadata })) ∧
    mpf.Close.Buffer = none ∧
    (mpf.Open).2.Close.Buffer = none := by
  refine ⟨?_, ?_, rfl, rfl⟩
  · by_cases h1 : mpf.Intent.C = []
    · simp [MetadataPreludeFile.Open, h1]
    · cases hg : lookupDB (mpf.Prelude.NamespaceMetadatasByDB.getD [])
          mpf.Intent.DB with
      | none => simp [MetadataPreludeFile.Open, h1, hg]
      | some g =>
        cases hf : findMeta g mpf.Intent.C with
        | none =>
          have hall : ∀ m ∈ g, m.Collection ≠ mpf.Intent.C :=
            (findMeta_none_iff g _).1 hf
          simp [MetadataPreludeFile.Open, h1, hg, hf, hall]
          exact hall
        | some m =>
          obtain ⟨hm1, hm2⟩ := findMeta_some_spec g _ m hf
          simp only [MetadataPreludeFile.Open, if_neg h1, hg, hf]
          constructor
          · intro hcontra
            exact Option.noConfusion hcontra
          · rintro (hc | hc | hall)
            · exact (h1 hc).elim
            · exact Option.noConfusion hc
            · exact ((hall m (by simpa using hm1)) hm2).elim
  · intro g cm hg hf hc
    have hfm : findMeta g mpf.Intent.C = some cm := by
      rw [findMeta_eq_find?]
      exact hf
    simp [MetadataPreludeFile.Open, if_neg hc, hg, hfm]

def mpf9 : MetadataPreludeFile := ⟨⟨db1, c1name⟩, p4sample, none⟩

theorem c9_metadata_accessor_witness :
    mpf9.Open = (none, { mpf9 with Buffer := some mdSample }) ∧
    (mpf9.Open).2.Close.Buffer = none ∧
    ((⟨⟨db1, []⟩, p4sample, none⟩ : MetadataPreludeFile).Open).1 =
      some "so such file" :=
  ⟨(c9_metadata_accessor mpf9).2.1 [⟨db1, c1name, mdSample, 7⟩]
      ⟨db1, c1name, mdSample, 7⟩ (by decide) (by decide) (by decide),
   (c9_metadata_accessor mpf9).2.2.2,
   (c9_metadata_accessor ⟨⟨db1, []⟩, p4sample, none⟩).1.2 (Or.inl rfl)⟩

/-! ### C10: Read never clears the sequence or the database list -/

/-- C10 (implicit): a successful `Read` on a Prelude with a non-empty
metadata sequence keeps the pre-existing records as a prefix of the
resulting sequence and the pre-existing database names as a prefix of the
database list, while the by-database index, when it was non-nil before the
call, is rebuilt from scratch so that every group it holds afterwards
consists solely of the records parsed during this `Read` — the
pre-existing records are no longer reachable through it. -/
theorem c10_read_frame (p p2 : Prelude) (input rest : List Nat)
    (_hne : p.NamespaceMetadatas ≠ [])
    (h : p.Read input = (none, p2, rest)) :
    (∃ newCms, p2.NamespaceMetadatas = p.NamespaceMetadatas ++ newCms ∧
      (p.NamespaceMetadatasByDB.isSome = true → ∀ db,
        groupOf p2 db = newCms.filter (fun c => c.Database == db))) ∧
    (∃ ext, p2.DBS = p.DBS ++ ext) := by
  have main : ∀ (q : Prelude),
      q.NamespaceMetadatas = p.NamespaceMetadatas → q.DBS = p.DBS →
      (p.NamespaceMetadatasByDB.isSome = true →
        q.NamespaceMetadatasByDB = some []) →
      ∀ cms, p2 = List.foldl Prelude.AddMetadata q cms →
      (∃ newCms, p2.NamespaceMetadatas = p.NamespaceMetadatas ++ newCms ∧
        (p.NamespaceMetadatasByDB.isSome = true → ∀ db,
          groupOf p2 db = newCms.filter (fun c => c.Database == db))) ∧
      (∃ ext, p2.DBS = p.DBS ++ ext) := by
    intro q h1 h2 h3 cms hc
    refine ⟨⟨cms, ?_, ?_⟩, ?_⟩
    · rw [hc, foldl_AddMetadata_NamespaceMetadatas, h1]
    · intro hs db
      rw [hc, groupOf_foldl,
        show groupOf q db = [] from by rw [groupOf, h3 hs]; rfl,
        List.nil_append]
    · obtain ⟨ext, he⟩ := foldl_AddMetadata_DBS_ext q cms
      exact ⟨ext, by rw [hc, he, h2]⟩
  simp only [Prelude.Read] at h
  split at h
  · simp only [Prod.mk.injEq] at h
    exact absurd h.1 (by simp)
  · split at h
    · simp only [Prod.mk.injEq] at h
      exact absurd h.1 (by simp)
    · by_cases hsome : p.NamespaceMetadatasByDB.isSome = true
      · rw [if_pos hsome] at h
        rcases readBlocks_true_shape _ _ _ _ _ h with ⟨cms, hc⟩ | ⟨hh, cms, hc⟩
        · exact main ⟨p.Header, p.DBS, p.NamespaceMetadatas, some []⟩
            rfl rfl (fun _ => rfl) cms hc
        · exact main ⟨some hh, p.DBS, p.NamespaceMetadatas, some []⟩
            rfl rfl (fun _ => rfl) cms hc
      · rw [if_neg hsome] at h
        rcases readBlocks_true_shape _ _ _ _ _ h with ⟨cms, hc⟩ | ⟨hh, cms, hc⟩
        · exact main p rfl rfl (fun hs => absurd hs hsome) cms hc
        · exact main ⟨some hh, p.DBS, p.NamespaceMetadatas,
            p.NamespaceMetadatasByDB⟩ rfl rfl (fun hs => absurd hs hsome) cms hc

theorem c10_read_frame_witness :
    (∃ newCms,
      (Prelude.Read p4sample
        (encodeLE32 MagicNumber ++ terminatorBytes)).2.1.NamespaceMetadatas =
        p4sample.NamespaceMetadatas ++ newCms ∧
      (p4sample.NamespaceMetadatasByDB.isSome = true → ∀ db,
        groupOf (Prelude.Read p4sample
          (encodeLE32 MagicNumber ++ terminatorBytes)).2.1 db =
          newCms.filter (fun c => c.Database == db))) ∧
    (∃ ext,
      (Prelude.Read p4sample
        (encodeLE32 MagicNumber ++ terminatorBytes)).2.1.DBS =
        p4sample.DBS ++ ext) :=
  c10_read_frame p4sample
    (Prelude.Read p4sample (encodeLE32 MagicNumber ++ terminatorBytes)).2.1
    (encodeLE32 MagicNumber ++ terminatorBytes)
    (Prelude.Read p4sample (encodeLE32 MagicNumber ++ terminatorBytes)).2.2
    (by decide) (by decide)

end Archive
